import Mathlib

/-!
Verification of the in-memory inverted index (`MemOnlyIndex`) of the
go-query-index repository.

The Go source is shallowly embedded as follows:

* a `Document` is the result of `IndexableFields()`: a finite association of
  field names to value lists (Go's `map[string][]string` is modelled as an
  association list; Go map keys are unique, and none of the properties below
  depend on iteration order);
* Go slices become `List`s, `int32` document ids become `Nat` (they are list
  indices; overflow at 2^31 documents is out of scope), Go maps become
  functions into `Option`;
* a tombstoned forward slot (`m.forward[id] = nil`) is `none`;
* operations that can panic in Go (out-of-range slice index, method call on a
  nil interface) return `Option MemOnlyIndex` / `Option` results, where the
  outer `none` marks the panic;
* the external analyzer package (go-query-analyze) is not part of this
  repository's sources, so analyzers are modelled as an abstract pair of
  functions `analyzeIndex`/`analyzeSearch`; the package-level globals
  `DefaultAnalyzer` and `IDAnalyzer` become the fields of an `AnalyzerEnv`
  parameter, and every theorem quantifies over it;
* the score arithmetic of `TopN` only compares scores, so `float32` scores
  are modelled as `Int` (the selection logic is ordering-generic).
-/

namespace GoIndex

/-- A document, as seen by the index: the association list returned by
`IndexableFields()` (field name to list of field values). -/
abbrev Document := List (String × List String)

/-- An external analyzer: the two entry points used by the index. -/
structure Analyzer where
  analyzeIndex : String → List String
  analyzeSearch : String → List String

/-- The package-level analyzer globals referenced by the index code. -/
structure AnalyzerEnv where
  defaultA : Analyzer
  idA : Analyzer

/-- The state of `MemOnlyIndex`: per-field analyzers, posting lists,
forward store, external-id mapping and the id field name. -/
structure MemOnlyIndex where
  perField : String → Option Analyzer
  postings : String → String → List Nat
  forward : List (Option Document)
  forwardByID : String → Option Nat
  IDField : String

/-- `NewMemOnlyIndex`: fresh index (the `nil` map check in Go merely
normalises the `perField` argument, which the function model absorbs). -/
def NewMemOnlyIndex (perField : String → Option Analyzer) : MemOnlyIndex :=
  { perField := perField
    postings := fun _ _ => []
    forward := []
    forwardByID := fun _ => none
    IDField := "_id" }

/-- Analyzer resolution used by `Index` and `deleteLocked`:
`perField[field]` if present, else the ID analyzer for id-shaped field
names, else the default analyzer. -/
def resolveIndexAnalyzer (env : AnalyzerEnv) (m : MemOnlyIndex) (field : String) : Analyzer :=
  match m.perField field with
  | some a => a
  | none => if field = m.IDField ∨ field = "id" ∨ field = "uuid" then env.idA else env.defaultA

/-- Point update of the posting-list store (`m.postings[k][v] = l`). -/
def setPost (m : MemOnlyIndex) (k v : String) (l : List Nat) : MemOnlyIndex :=
  { m with postings := fun k2 v2 => if k2 = k ∧ v2 = v then l else m.postings k2 v2 }

/-- `addPostings(k, v, did)`: append `did` to `postings[k][v]` unless it is
already the last element (a missing or empty list becomes `[did]`). -/
def addPostings (m : MemOnlyIndex) (k v : String) (did : Nat) : MemOnlyIndex :=
  match (m.postings k v).getLast? with
  | none => setPost m k v [did]
  | some last => if last = did then m else setPost m k v (m.postings k v ++ [did])

/-- Go's `sort.Search` binary-search loop (`i`, `j` bounds, predicate `f`).
The loop body is recursed on an explicit `fuel` so that the function is
structurally recursive; `j - i` strictly decreases on every iteration, so
any `fuel ≥ j - i` (as supplied by `goSearch`) is never exhausted and the
result is exactly that of Go's unbounded loop. -/
def goSearchLoop (f : Nat → Bool) : Nat → Nat → Nat → Nat
  | 0, i, _ => i
  | fuel + 1, i, j =>
    if i < j then
      let mid := (i + j) / 2
      if f mid then goSearchLoop f fuel i mid else goSearchLoop f fuel (mid + 1) j
    else i

/-- Go's `sort.Search(n, f)` (the search interval starts as `[0, n)`, so
`n` iterations always suffice). -/
def goSearch (n : Nat) (f : Nat → Bool) : Nat := goSearchLoop f n 0 n

/-- `deletePostings(k, v, did)`: locate `did` with
`sort.Search(len, fun i => current[i] <= did)` and cut it out when
`current[found] == did`; otherwise leave the list alone. -/
def deletePostings (m : MemOnlyIndex) (k v : String) (did : Nat) : MemOnlyIndex :=
  let cur := m.postings k v
  if cur.isEmpty then m
  else
    let found := goSearch cur.length fun i => decide (cur.getD i 0 ≤ did)
    if found < cur.length ∧ cur.getD found 0 = did then
      setPost m k v (cur.take found ++ cur.drop (found + 1))
    else m

/-- All values of the fields of `d` whose name is the id field. -/
def idValuesOf (idf : String) (d : Document) : List String :=
  (d.filter fun p => p.1 = idf).flatMap Prod.snd

/-- `m.forwardByID[v] = did`. -/
def setID (m : MemOnlyIndex) (v : String) (did : Nat) : MemOnlyIndex :=
  { m with forwardByID := fun u => if u = v then some did else m.forwardByID u }

/-- The id-field loop of `Index`: `forwardByID[v] = did` for each value. -/
def setIDs (m : MemOnlyIndex) (did : Nat) (values : List String) : MemOnlyIndex :=
  values.foldl (fun m v => setID m v did) m

/-- `delete(m.forwardByID, v)`. -/
def removeID (m : MemOnlyIndex) (v : String) : MemOnlyIndex :=
  { m with forwardByID := fun u => if u = v then none else m.forwardByID u }

/-- The id-field loop of `deleteLocked`: remove each value's mapping. -/
def removeIDs (m : MemOnlyIndex) (values : List String) : MemOnlyIndex :=
  values.foldl removeID m

/-- The token loop of `Index`: `addPostings(field, t, did)` per token. -/
def addTokens (m : MemOnlyIndex) (field : String) (did : Nat) (tokens : List String) :
    MemOnlyIndex :=
  tokens.foldl (fun m t => addPostings m field t did) m

/-- The value loop of `Index`: analyze each value, add its tokens. -/
def addValues (m : MemOnlyIndex) (field : String) (did : Nat) (anl : Analyzer)
    (values : List String) : MemOnlyIndex :=
  values.foldl (fun m v => addTokens m field did (anl.analyzeIndex v)) m

/-- One iteration of the field loop of `Index`. -/
def indexField (env : AnalyzerEnv) (did : Nat) (m : MemOnlyIndex) (p : String × List String) :
    MemOnlyIndex :=
  let m1 := if p.1 = m.IDField then setIDs m did p.2 else m
  addValues m1 p.1 did (resolveIndexAnalyzer env m1 p.1) p.2

/-- Indexing a single document: allocate `did = len(forward)`, append the
document, then run the field loop. -/
def indexOne (env : AnalyzerEnv) (m : MemOnlyIndex) (d : Document) : MemOnlyIndex :=
  let did := m.forward.length
  let m1 := { m with forward := m.forward ++ [some d] }
  d.foldl (indexField env did) m1

/-- `Index(docs...)`. -/
def Index (env : AnalyzerEnv) (m : MemOnlyIndex) (docs : List Document) : MemOnlyIndex :=
  docs.foldl (indexOne env) m

/-- The token loop of `deleteLocked`. -/
def delTokens (m : MemOnlyIndex) (field : String) (did : Nat) (tokens : List String) :
    MemOnlyIndex :=
  tokens.foldl (fun m t => deletePostings m field t did) m

/-- The value loop of `deleteLocked`. -/
def delValues (m : MemOnlyIndex) (field : String) (did : Nat) (anl : Analyzer)
    (values : List String) : MemOnlyIndex :=
  values.foldl (fun m v => delTokens m field did (anl.analyzeIndex v)) m

/-- One iteration of the field loop of `deleteLocked`. -/
def deleteField (env : AnalyzerEnv) (did : Nat) (m : MemOnlyIndex) (p : String × List String) :
    MemOnlyIndex :=
  let m1 := if p.1 = m.IDField then removeIDs m p.2 else m
  delValues m1 p.1 did (resolveIndexAnalyzer env m1 p.1) p.2

/-- `deleteLocked(id)`. Go reads `d := m.forward[id]` and immediately calls
`d.IndexableFields()`: an out-of-range `id` panics on the slice index, and a
tombstoned slot panics on the method call through the nil interface (there is
no tombstone check in the source); both panics are the outer `none`.
Otherwise the field loop runs and the slot is tombstoned. -/
def deleteLocked (env : AnalyzerEnv) (m : MemOnlyIndex) (did : Nat) : Option MemOnlyIndex :=
  match m.forward[did]? with
  | some (some d) =>
      let m1 := d.foldl (deleteField env did) m
      some { m1 with forward := m1.forward.set did none }
  | _ => none

/-- `Delete(id)`: `deleteLocked` under the write lock (a negative `int32`
`id` panics on the slice index). -/
def Delete (env : AnalyzerEnv) (m : MemOnlyIndex) (id : Int) : Option MemOnlyIndex :=
  if 0 ≤ id then deleteLocked env m id.toNat else none

/-- `DeleteByID(uuid)`: resolve through `forwardByID`; absent id is a noop. -/
def DeleteByID (env : AnalyzerEnv) (m : MemOnlyIndex) (uuid : String) : Option MemOnlyIndex :=
  match m.forwardByID uuid with
  | some id => deleteLocked env m id
  | none => some m

/-- `Get(id)`: `return m.forward[id]` — panics (outer `none`) out of range,
otherwise returns the slot (`some none` is a tombstone's nil document). -/
def Get (m : MemOnlyIndex) (id : Int) : Option (Option Document) :=
  if 0 ≤ id ∧ id < (m.forward.length : Int) then some (m.forward.getD id.toNat none)
  else none

/-- `GetByID(uuid)`: look up `forwardByID`; a missing mapping returns nil,
a present mapping indexes `m.forward` unchecked (panic = outer `none`). -/
def GetByID (m : MemOnlyIndex) (uuid : String) : Option (Option Document) :=
  match m.forwardByID uuid with
  | some id => m.forward[id]?
  | none => some none

/-- The term query produced by `NewTermQuery`: display label
`"field:term"`, the collection size used for IDF, and the posting list. -/
structure Query where
  n : Nat
  label : String
  postings : List Nat

/-- `NewTermQuery(field, term)` (both missing-map cases yield the empty
posting list, which the function model of `postings` already is). -/
def NewTermQuery (m : MemOnlyIndex) (field term : String) : Query :=
  { n := m.forward.length
    label := field ++ ":" ++ term
    postings := m.postings field term }

/-- `Terms(field, term)`: resolve `perField[field]` or the default analyzer
(no ID-analyzer fallback on this path), then one term query per token of
`AnalyzeSearch`, in order. -/
def Terms (env : AnalyzerEnv) (m : MemOnlyIndex) (field text : String) : List Query :=
  let anl := match m.perField field with
    | some a => a
    | none => env.defaultA
  (anl.analyzeSearch text).foldl (fun qs t => qs ++ [NewTermQuery m field t]) []

/-- A hit of `TopN`. -/
structure Hit where
  score : Int
  id : Nat
  doc : Document
deriving DecidableEq

/-- The search result of `TopN`. -/
structure SearchResult where
  Total : Nat
  Hits : List Hit
deriving DecidableEq

/-- A match yielded by `Foreach` to `TopN`'s callback:
document id, base score and (live) document. -/
abbrev Match := Nat × Int × Document

/-- Rescoring: `cb(did, originalScore, d)` when a callback is given,
the original score otherwise. -/
def applyCb (cb : Option (Nat → Int → Document → Int)) (mt : Match) : Hit :=
  match cb with
  | some f => { score := f mt.1 mt.2.1 mt.2.2, id := mt.1, doc := mt.2.2 }
  | none => { score := mt.2.1, id := mt.1, doc := mt.2.2 }

/-- The shift-and-insert loop of `TopN`: scan for the first entry whose
score is below the candidate's, shift the tail right inside the fixed-size
slice (discarding the last element) and write the candidate there; when no
entry qualifies the slice is unchanged. -/
def insertLoop (hit : Hit) : List Hit → List Hit
  | [] => []
  | h :: t => if h.score < hit.score then hit :: (h :: t).dropLast else h :: insertLoop hit t

/-- One candidate step of `TopN`'s selection (`limit ≠ 0` on this path):
append when below capacity, otherwise insert only when the candidate's
score strictly exceeds the current last entry's. -/
def stepTopN (limit : Nat) (scored : List Hit) (hit : Hit) : List Hit :=
  if scored.length < limit then insertLoop hit (scored ++ [hit])
  else
    match scored.getLast? with
    | some last => if last.score < hit.score then insertLoop hit scored else scored
    | none => scored

/-- The body of `TopN`'s `Foreach` callback: count the match; when
`limit == 0` stop there, otherwise rescore and run the bounded insertion. -/
def topNStep (limit : Nat) (cb : Option (Nat → Int → Document → Int))
    (acc : Nat × List Hit) (mt : Match) : Nat × List Hit :=
  let total := acc.1 + 1
  if limit = 0 then (total, acc.2)
  else (total, stepTopN limit acc.2 (applyCb cb mt))

/-- `TopN(limit, query, cb)` as a function of the matches that `Foreach`
yields. -/
def TopN (limit : Nat) (ms : List Match) (cb : Option (Nat → Int → Document → Int)) :
    SearchResult :=
  let p := ms.foldl (topNStep limit cb) (0, [])
  { Total := p.1, Hits := p.2 }

/-- One index-mutating call, for reachability statements. -/
inductive Op where
  | index (docs : List Document)
  | del (id : Int)
  | delByID (uuid : String)

/-- Run one call; `none` is a panic. -/
def applyOp (env : AnalyzerEnv) (m : MemOnlyIndex) : Op → Option MemOnlyIndex
  | .index docs => some (Index env m docs)
  | .del id => Delete env m id
  | .delByID u => DeleteByID env m u

/-- Run a sequence of calls. -/
def runOps (env : AnalyzerEnv) (m : MemOnlyIndex) (ops : List Op) : Option MemOnlyIndex :=
  ops.foldlM (applyOp env) m

/-- A state reachable from a fresh index by a panic-free call sequence. -/
def Reach (env : AnalyzerEnv) (pf : String → Option Analyzer) (m : MemOnlyIndex) : Prop :=
  ∃ ops, runOps env (NewMemOnlyIndex pf) ops = some m

/-- The slot `did` holds the live document `d`. -/
def LiveAt (m : MemOnlyIndex) (did : Nat) (d : Document) : Prop :=
  m.forward[did]? = some (some d)

/-- No id-field value of `d` is owned by any currently live document of
`m` (the caller discipline under which the external-id mapping is exact). -/
def DisjointIds (m : MemOnlyIndex) (d : Document) : Prop :=
  ∀ v ∈ idValuesOf m.IDField d, ∀ did doc, LiveAt m did doc → v ∉ idValuesOf m.IDField doc

/-- Reachability where every indexed document's id-field values are fresh
among the then-live documents (one document per `index` step; `Index` on a
list is the fold of these steps). -/
inductive GReach (env : AnalyzerEnv) (pf : String → Option Analyzer) : MemOnlyIndex → Prop
  | init : GReach env pf (NewMemOnlyIndex pf)
  | index (m : MemOnlyIndex) (d : Document) :
      GReach env pf m → DisjointIds m d → GReach env pf (indexOne env m d)
  | delete (m : MemOnlyIndex) (did : Nat) (m' : MemOnlyIndex) :
      GReach env pf m → deleteLocked env m did = some m' → GReach env pf m'

/-! ### Specification-side definitions

`insAfterGE`, `sortDescStable` and `topNSpec` follow the spec's words for
`top_n` ("maintain `hits` sorted descending by score, bounded to `limit`;
insert at the first position whose score is less than the candidate's;
ties: first-seen wins"): each candidate is inserted after every
incumbent of greater-or-equal score, and the full stable descending sort is
truncated to `limit`. They are compared against the `TopN` code above. -/

/-- Insert a hit after all entries of greater-or-equal score (before the
first strictly smaller one). -/
def insAfterGE (hit : Hit) : List Hit → List Hit
  | [] => [hit]
  | h :: t => if h.score < hit.score then hit :: h :: t else h :: insAfterGE hit t

/-- Stable descending insertion sort, processing matches first-seen first. -/
def sortDescStable (l : List Hit) : List Hit :=
  l.foldl (fun acc h => insAfterGE h acc) []

/-- The rescored hit list of the full match sequence. -/
def rescored (cb : Option (Nat → Int → Document → Int)) (ms : List Match) : List Hit :=
  ms.map (applyCb cb)

/-- The spec's `top_n` hit list: the first `limit` entries of the stable
descending sort of all rescored matches. -/
def topNSpec (limit : Nat) (ms : List Match) (cb : Option (Nat → Int → Document → Int)) :
    List Hit :=
  (sortDescStable (rescored cb ms)).take limit

/-- Non-strict descending score order. -/
def ScoreDesc (a b : Hit) : Prop := b.score ≤ a.score

/-! ### Invariant predicates -/

/-- Every posting list is strictly increasing and bounded by `L`. -/
def PostsOK (m : MemOnlyIndex) (L : Nat) : Prop :=
  ∀ f t, (m.postings f t).Pairwise (· < ·) ∧ ∀ x ∈ m.postings f t, x < L

/-- Every external-id mapping points to a live in-range document one of
whose id-field values is the mapped key. -/
def ByIdOk (m : MemOnlyIndex) : Prop :=
  ∀ v did, m.forwardByID v = some did →
    ∃ d, LiveAt m did d ∧ v ∈ idValuesOf m.IDField d

/-- The exact external-id invariant of the spec (I5): `v ↦ did` is in
`forwardByID` iff slot `did` is live and its id field contains `v`. -/
def IffInv (m : MemOnlyIndex) : Prop :=
  ∀ v did, m.forwardByID v = some did ↔ ∃ d, LiveAt m did d ∧ v ∈ idValuesOf m.IDField d

/-- No two distinct live documents share an id-field value. -/
def UniqueLive (m : MemOnlyIndex) : Prop :=
  ∀ d1 d2 doc1 doc2, LiveAt m d1 doc1 → LiveAt m d2 doc2 → d1 ≠ d2 →
    ∀ v, v ∈ idValuesOf m.IDField doc1 → v ∉ idValuesOf m.IDField doc2

/-! ### Concrete fixtures for witnesses and counterexamples -/

/-- A concrete analyzer environment: both analyzers emit the raw value as a
single token (the behavior of the ID analyzer; for the default analyzer this
matches its behavior on inputs that are already single normalised words,
such as `"sofia"`). -/
def exEnv : AnalyzerEnv :=
  { defaultA := { analyzeIndex := fun s => [s], analyzeSearch := fun s => [s] }
    idA := { analyzeIndex := fun s => [s], analyzeSearch := fun s => [s] } }

/-- No per-field analyzers. -/
def exPF : String → Option Analyzer := fun _ => none

/-- A document with one `names` field. -/
def exDoc : Document := [("names", ["sofia"])]

/-- A document with an external id and a `names` field. -/
def exDocID : Document := [("_id", ["x"]), ("names", ["sofia"])]

/-- Two copies of `exDoc` indexed into a fresh index: posting list
`postings["names"]["sofia"] = [0, 1]`. -/
def exTwo : MemOnlyIndex := Index exEnv (NewMemOnlyIndex exPF) [exDoc, exDoc]

/-- One copy of `exDoc` indexed into a fresh index. -/
def exOne : MemOnlyIndex := Index exEnv (NewMemOnlyIndex exPF) [exDoc]

/-- `exOne` with its only document deleted: slot 0 is a tombstone. -/
def exTomb : MemOnlyIndex := (Delete exEnv exOne 0).getD (NewMemOnlyIndex exPF)

/-- Two documents sharing the external id `"x"`. -/
def exDupIDs : MemOnlyIndex := Index exEnv (NewMemOnlyIndex exPF) [exDocID, exDocID]

/-- One document with external id `"x"` indexed into a fresh index. -/
def exWithID : MemOnlyIndex := Index exEnv (NewMemOnlyIndex exPF) [exDocID]

/-! ### Generic fold helpers -/

theorem foldl_pres {σ α : Type} (P : σ → Prop) (f : σ → α → σ)
    (h : ∀ s a, P s → P (f s a)) : ∀ (l : List α) (s : σ), P s → P (l.foldl f s) := by
  intro l
  induction l with
  | nil => exact fun s hs => hs
  | cons a t ih => exact fun s hs => ih _ (h s a hs)

theorem foldl_proj {σ α β : Type} (g : σ → β) (f : σ → α → σ)
    (h : ∀ s a, g (f s a) = g s) : ∀ (l : List α) (s : σ), g (l.foldl f s) = g s := by
  intro l
  induction l with
  | nil => exact fun s => rfl
  | cons a t ih => exact fun s => (ih (f s a)).trans (h s a)

/-! ### Frame lemmas: which state components each helper leaves alone -/

theorem addPostings_forward (m : MemOnlyIndex) (k v : String) (did : Nat) :
    (addPostings m k v did).forward = m.forward := by
  unfold addPostings
  cases (m.postings k v).getLast? with
  | none => rfl
  | some last => dsimp only; split <;> rfl

theorem addPostings_byID (m : MemOnlyIndex) (k v : String) (did : Nat) :
    (addPostings m k v did).forwardByID = m.forwardByID := by
  unfold addPostings
  cases (m.postings k v).getLast? with
  | none => rfl
  | some last => dsimp only; split <;> rfl

theorem addPostings_perField (m : MemOnlyIndex) (k v : String) (did : Nat) :
    (addPostings m k v did).perField = m.perField := by
  unfold addPostings
  cases (m.postings k v).getLast? with
  | none => rfl
  | some last => dsimp only; split <;> rfl

theorem addPostings_IDField (m : MemOnlyIndex) (k v : String) (did : Nat) :
    (addPostings m k v did).IDField = m.IDField := by
  unfold addPostings
  cases (m.postings k v).getLast? with
  | none => rfl
  | some last => dsimp only; split <;> rfl

theorem deletePostings_forward (m : MemOnlyIndex) (k v : String) (did : Nat) :
    (deletePostings m k v did).forward = m.forward := by
  unfold deletePostings
  dsimp only
  split
  · rfl
  · split <;> rfl

theorem deletePostings_byID (m : MemOnlyIndex) (k v : String) (did : Nat) :
    (deletePostings m k v did).forwardByID = m.forwardByID := by
  unfold deletePostings
  dsimp only
  split
  · rfl
  · split <;> rfl

theorem deletePostings_perField (m : MemOnlyIndex) (k v : String) (did : Nat) :
    (deletePostings m k v did).perField = m.perField := by
  unfold deletePostings
  dsimp only
  split
  · rfl
  · split <;> rfl

theorem deletePostings_IDField (m : MemOnlyIndex) (k v : String) (did : Nat) :
    (deletePostings m k v did).IDField = m.IDField := by
  unfold deletePostings
  dsimp only
  split
  · rfl
  · split <;> rfl

theorem setIDs_postings (m : MemOnlyIndex) (did : Nat) (vs : List String) :
    (setIDs m did vs).postings = m.postings :=
  foldl_proj MemOnlyIndex.postings (fun s v => setID s v did) (fun _ _ => rfl) vs m

theorem setIDs_forward (m : MemOnlyIndex) (did : Nat) (vs : List String) :
    (setIDs m did vs).forward = m.forward :=
  foldl_proj MemOnlyIndex.forward (fun s v => setID s v did) (fun _ _ => rfl) vs m

theorem setIDs_perField (m : MemOnlyIndex) (did : Nat) (vs : List String) :
    (setIDs m did vs).perField = m.perField :=
  foldl_proj MemOnlyIndex.perField (fun s v => setID s v did) (fun _ _ => rfl) vs m

theorem setIDs_IDField (m : MemOnlyIndex) (did : Nat) (vs : List String) :
    (setIDs m did vs).IDField = m.IDField :=
  foldl_proj MemOnlyIndex.IDField (fun s v => setID s v did) (fun _ _ => rfl) vs m

theorem removeIDs_postings (m : MemOnlyIndex) (vs : List String) :
    (removeIDs m vs).postings = m.postings :=
  foldl_proj MemOnlyIndex.postings removeID (fun _ _ => rfl) vs m

theorem removeIDs_forward (m : MemOnlyIndex) (vs : List String) :
    (removeIDs m vs).forward = m.forward :=
  foldl_proj MemOnlyIndex.forward removeID (fun _ _ => rfl) vs m

theorem removeIDs_perField (m : MemOnlyIndex) (vs : List String) :
    (removeIDs m vs).perField = m.perField :=
  foldl_proj MemOnlyIndex.perField removeID (fun _ _ => rfl) vs m

theorem removeIDs_IDField (m : MemOnlyIndex) (vs : List String) :
    (removeIDs m vs).IDField = m.IDField :=
  foldl_proj MemOnlyIndex.IDField removeID (fun _ _ => rfl) vs m

theorem addTokens_forward (m : MemOnlyIndex) (field : String) (did : Nat) (ts : List String) :
    (addTokens m field did ts).forward = m.forward :=
  foldl_proj MemOnlyIndex.forward _ (fun s t => addPostings_forward s field t did) ts m

theorem addTokens_byID (m : MemOnlyIndex) (field : String) (did : Nat) (ts : List String) :
    (addTokens m field did ts).forwardByID = m.forwardByID :=
  foldl_proj MemOnlyIndex.forwardByID _ (fun s t => addPostings_byID s field t did) ts m

theorem addTokens_perField (m : MemOnlyIndex) (field : String) (did : Nat) (ts : List String) :
    (addTokens m field did ts).perField = m.perField :=
  foldl_proj MemOnlyIndex.perField _ (fun s t => addPostings_perField s field t did) ts m

theorem addTokens_IDField (m : MemOnlyIndex) (field : String) (did : Nat) (ts : List String) :
    (addTokens m field did ts).IDField = m.IDField :=
  foldl_proj MemOnlyIndex.IDField _ (fun s t => addPostings_IDField s field t did) ts m

theorem addValues_forward (m : MemOnlyIndex) (field : String) (did : Nat) (anl : Analyzer)
    (vs : List String) : (addValues m field did anl vs).forward = m.forward :=
  foldl_proj MemOnlyIndex.forward _ (fun s _ => addTokens_forward s field did _) vs m

theorem addValues_byID (m : MemOnlyIndex) (field : String) (did : Nat) (anl : Analyzer)
    (vs : List String) : (addValues m field did anl vs).forwardByID = m.forwardByID :=
  foldl_proj MemOnlyIndex.forwardByID _ (fun s _ => addTokens_byID s field did _) vs m

theorem addValues_perField (m : MemOnlyIndex) (field : String) (did : Nat) (anl : Analyzer)
    (vs : List String) : (addValues m field did anl vs).perField = m.perField :=
  foldl_proj MemOnlyIndex.perField _ (fun s _ => addTokens_perField s field did _) vs m

theorem addValues_IDField (m : MemOnlyIndex) (field : String) (did : Nat) (anl : Analyzer)
    (vs : List String) : (addValues m field did anl vs).IDField = m.IDField :=
  foldl_proj MemOnlyIndex.IDField _ (fun s _ => addTokens_IDField s field did _) vs m

theorem delTokens_forward (m : MemOnlyIndex) (field : String) (did : Nat) (ts : List String) :
    (delTokens m field did ts).forward = m.forward :=
  foldl_proj MemOnlyIndex.forward _ (fun s t => deletePostings_forward s field t did) ts m

theorem delTokens_byID (m : MemOnlyIndex) (field : String) (did : Nat) (ts : List String) :
    (delTokens m field did ts).forwardByID = m.forwardByID :=
  foldl_proj MemOnlyIndex.forwardByID _ (fun s t => deletePostings_byID s field t did) ts m

theorem delTokens_perField (m : MemOnlyIndex) (field : String) (did : Nat) (ts : List String) :
    (delTokens m field did ts).perField = m.perField :=
  foldl_proj MemOnlyIndex.perField _ (fun s t => deletePostings_perField s field t did) ts m

theorem delTokens_IDField (m : MemOnlyIndex) (field : String) (did : Nat) (ts : List String) :
    (delTokens m field did ts).IDField = m.IDField :=
  foldl_proj MemOnlyIndex.IDField _ (fun s t => deletePostings_IDField s field t did) ts m

theorem delValues_forward (m : MemOnlyIndex) (field : String) (did : Nat) (anl : Analyzer)
    (vs : List String) : (delValues m field did anl vs).forward = m.forward :=
  foldl_proj MemOnlyIndex.forward _ (fun s _ => delTokens_forward s field did _) vs m

theorem delValues_byID (m : MemOnlyIndex) (field : String) (did : Nat) (anl : Analyzer)
    (vs : List String) : (delValues m field did anl vs).forwardByID = m.forwardByID :=
  foldl_proj MemOnlyIndex.forwardByID _ (fun s _ => delTokens_byID s field did _) vs m

theorem delValues_perField (m : MemOnlyIndex) (field : String) (did : Nat) (anl : Analyzer)
    (vs : List String) : (delValues m field did anl vs).perField = m.perField :=
  foldl_proj MemOnlyIndex.perField _ (fun s _ => delTokens_perField s field did _) vs m

theorem delValues_IDField (m : MemOnlyIndex) (field : String) (did : Nat) (anl : Analyzer)
    (vs : List String) : (delValues m field did anl vs).IDField = m.IDField :=
  foldl_proj MemOnlyIndex.IDField _ (fun s _ => delTokens_IDField s field did _) vs m

theorem indexField_forward (env : AnalyzerEnv) (did : Nat) (m : MemOnlyIndex)
    (p : String × List String) : (indexField env did m p).forward = m.forward := by
  unfold indexField
  dsimp only
  rw [addValues_forward]
  split
  · rw [setIDs_forward]
  · rfl

theorem indexField_perField (env : AnalyzerEnv) (did : Nat) (m : MemOnlyIndex)
    (p : String × List String) : (indexField env did m p).perField = m.perField := by
  unfold indexField
  dsimp only
  rw [addValues_perField]
  split
  · rw [setIDs_perField]
  · rfl

theorem indexField_IDField (env : AnalyzerEnv) (did : Nat) (m : MemOnlyIndex)
    (p : String × List String) : (indexField env did m p).IDField = m.IDField := by
  unfold indexField
  dsimp only
  rw [addValues_IDField]
  split
  · rw [setIDs_IDField]
  · rfl

theorem deleteField_forward (env : AnalyzerEnv) (did : Nat) (m : MemOnlyIndex)
    (p : String × List String) : (deleteField env did m p).forward = m.forward := by
  unfold deleteField
  dsimp only
  rw [delValues_forward]
  split
  · rw [removeIDs_forward]
  · rfl

theorem deleteField_perField (env : AnalyzerEnv) (did : Nat) (m : MemOnlyIndex)
    (p : String × List String) : (deleteField env did m p).perField = m.perField := by
  unfold deleteField
  dsimp only
  rw [delValues_perField]
  split
  · rw [removeIDs_perField]
  · rfl

theorem deleteField_IDField (env : AnalyzerEnv) (did : Nat) (m : MemOnlyIndex)
    (p : String × List String) : (deleteField env did m p).IDField = m.IDField := by
  unfold deleteField
  dsimp only
  rw [delValues_IDField]
  split
  · rw [removeIDs_IDField]
  · rfl

theorem indexFold_forward (env : AnalyzerEnv) (did : Nat) (l : List (String × List String))
    (m : MemOnlyIndex) : (l.foldl (indexField env did) m).forward = m.forward :=
  foldl_proj MemOnlyIndex.forward _ (fun s p => indexField_forward env did s p) l m

theorem indexFold_IDField (env : AnalyzerEnv) (did : Nat) (l : List (String × List String))
    (m : MemOnlyIndex) : (l.foldl (indexField env did) m).IDField = m.IDField :=
  foldl_proj MemOnlyIndex.IDField _ (fun s p => indexField_IDField env did s p) l m

theorem deleteFold_forward (env : AnalyzerEnv) (did : Nat) (l : List (String × List String))
    (m : MemOnlyIndex) : (l.foldl (deleteField env did) m).forward = m.forward :=
  foldl_proj MemOnlyIndex.forward _ (fun s p => deleteField_forward env did s p) l m

theorem deleteFold_IDField (env : AnalyzerEnv) (did : Nat) (l : List (String × List String))
    (m : MemOnlyIndex) : (l.foldl (deleteField env did) m).IDField = m.IDField :=
  foldl_proj MemOnlyIndex.IDField _ (fun s p => deleteField_IDField env did s p) l m

/-- The forward store of `indexOne`: exactly the old store with the new
document appended (so its DocID is the pre-append length). -/
theorem indexOne_forward (env : AnalyzerEnv) (m : MemOnlyIndex) (d : Document) :
    (indexOne env m d).forward = m.forward ++ [some d] := by
  unfold indexOne
  rw [indexFold_forward]

theorem indexOne_IDField (env : AnalyzerEnv) (m : MemOnlyIndex) (d : Document) :
    (indexOne env m d).IDField = m.IDField := by
  unfold indexOne
  rw [indexFold_IDField]

/-- The forward store of a successful `deleteLocked`: the old store with
slot `did` tombstoned (length and all other slots retained). -/
theorem deleteLocked_forward (env : AnalyzerEnv) (m : MemOnlyIndex) (did : Nat)
    (m' : MemOnlyIndex) (h : deleteLocked env m did = some m') :
    m'.forward = m.forward.set did none := by
  unfold deleteLocked at h
  cases hg : m.forward[did]? with
  | none => rw [hg] at h; exact absurd h (by simp)
  | some s =>
    cases s with
    | none => rw [hg] at h; exact absurd h (by simp)
    | some d =>
      rw [hg] at h
      dsimp only at h
      cases h
      dsimp only
      rw [deleteFold_forward]

theorem deleteLocked_IDField (env : AnalyzerEnv) (m : MemOnlyIndex) (did : Nat)
    (m' : MemOnlyIndex) (h : deleteLocked env m did = some m') :
    m'.IDField = m.IDField := by
  unfold deleteLocked at h
  cases hg : m.forward[did]? with
  | none => rw [hg] at h; exact absurd h (by simp)
  | some s =>
    cases s with
    | none => rw [hg] at h; exact absurd h (by simp)
    | some d =>
      rw [hg] at h
      dsimp only at h
      cases h
      dsimp only
      rw [deleteFold_IDField]

/-! ### TopN: the selection loop against the stable descending sort -/

theorem topNStep_fst (limit : Nat) (cb : Option (Nat → Int → Document → Int))
    (acc : Nat × List Hit) (mt : Match) : (topNStep limit cb acc mt).1 = acc.1 + 1 := by
  unfold topNStep
  dsimp only
  split <;> rfl

theorem topNStep_zero (cb : Option (Nat → Int → Document → Int)) (acc : Nat × List Hit)
    (mt : Match) : topNStep 0 cb acc mt = (acc.1 + 1, acc.2) := by
  unfold topNStep
  simp

theorem topn_fold_zero (cb : Option (Nat → Int → Document → Int)) :
    ∀ (ms : List Match) (t0 : Nat) (sc : List Hit),
      ms.foldl (topNStep 0 cb) (t0, sc) = (t0 + ms.length, sc) := by
  intro ms
  induction ms with
  | nil => intro t0 sc; simp
  | cons mt t ih =>
    intro t0 sc
    rw [List.foldl_cons, topNStep_zero, ih, List.length_cons]
    have h : t0 + 1 + t.length = t0 + (t.length + 1) := by omega
    rw [h]

theorem insAfterGE_length (hit : Hit) : ∀ l : List Hit, (insAfterGE hit l).length = l.length + 1 := by
  intro l
  induction l with
  | nil => rfl
  | cons a t ih =>
    unfold insAfterGE
    split
    · simp
    · simp [ih]

theorem mem_insAfterGE (hit : Hit) : ∀ (l : List Hit) (x : Hit), x ∈ insAfterGE hit l → x = hit ∨ x ∈ l := by
  intro l
  induction l with
  | nil => intro x hx; simp [insAfterGE] at hx; exact Or.inl hx
  | cons a t ih =>
    intro x hx
    unfold insAfterGE at hx
    split at hx
    · rcases List.mem_cons.1 hx with hx | hx
      · exact Or.inl hx
      · exact Or.inr hx
    · rcases List.mem_cons.1 hx with hx | hx
      · exact Or.inr (List.mem_cons.2 (Or.inl hx))
      · rcases ih x hx with hx2 | hx2
        · exact Or.inl hx2
        · exact Or.inr (List.mem_cons.2 (Or.inr hx2))

theorem insAfterGE_sorted (hit : Hit) :
    ∀ l : List Hit, l.Pairwise ScoreDesc → (insAfterGE hit l).Pairwise ScoreDesc := by
  intro l
  induction l with
  | nil => intro _; simp [insAfterGE, List.Pairwise]
  | cons a t ih =>
    intro hp
    rcases List.pairwise_cons.1 hp with ⟨ha, ht⟩
    unfold insAfterGE
    by_cases h : a.score < hit.score
    · rw [if_pos h]
      refine List.pairwise_cons.2 ⟨?_, hp⟩
      intro x hx
      rcases List.mem_cons.1 hx with hx | hx
      · subst hx
        exact le_of_lt h
      · exact le_trans (ha x hx) (le_of_lt h)
    · rw [if_neg h]
      refine List.pairwise_cons.2 ⟨?_, ih ht⟩
      intro x hx
      rcases mem_insAfterGE hit t x hx with hx2 | hx2
      · subst hx2
        exact not_lt.1 h
      · exact ha x hx2

theorem insAfterGE_perm (hit : Hit) : ∀ l : List Hit, (insAfterGE hit l).Perm (hit :: l) := by
  intro l
  induction l with
  | nil => exact List.Perm.refl _
  | cons a t ih =>
    unfold insAfterGE
    split
    · exact List.Perm.refl _
    · exact List.Perm.trans (ih.cons a) (List.Perm.swap hit a t)

theorem insertLoop_append (hit : Hit) :
    ∀ l : List Hit, insertLoop hit (l ++ [hit]) = insAfterGE hit l := by
  intro l
  induction l with
  | nil => simp [insertLoop, insAfterGE]
  | cons a t ih =>
    rw [List.cons_append]
    unfold insertLoop insAfterGE
    by_cases h : a.score < hit.score
    · rw [if_pos h, if_pos h, ← List.cons_append, List.dropLast_concat]
    · rw [if_neg h, if_neg h, ih]

theorem insertLoop_full (hit : Hit) :
    ∀ l : List Hit, (∃ x ∈ l, x.score < hit.score) →
      insertLoop hit l = (insAfterGE hit l).take l.length := by
  intro l
  induction l with
  | nil => intro h; simp at h
  | cons a t ih =>
    intro h
    unfold insertLoop insAfterGE
    by_cases ha : a.score < hit.score
    · rw [if_pos ha, if_pos ha]
      rw [List.dropLast_eq_take]
      simp
    · rw [if_neg ha, if_neg ha]
      have hw : ∃ x ∈ t, x.score < hit.score := by
        rcases h with ⟨x, hx, hlt⟩
        rcases List.mem_cons.1 hx with hx | hx
        · exact absurd (hx ▸ hlt) ha
        · exact ⟨x, hx, hlt⟩
      rw [ih hw]
      simp

theorem insAfterGE_take_of_ge (hit : Hit) :
    ∀ (l : List Hit) (n : Nat), n ≤ l.length →
      (∀ x ∈ l.take n, ¬ x.score < hit.score) →
      (insAfterGE hit l).take n = l.take n := by
  intro l
  induction l with
  | nil =>
    intro n hn _
    have hn0 : n = 0 := Nat.le_zero.1 (by simpa using hn)
    subst hn0
    simp
  | cons a t ih =>
    intro n hn hall
    cases n with
    | zero => simp
    | succ k =>
      have ha : ¬ a.score < hit.score := hall a (by simp)
      unfold insAfterGE
      rw [if_neg ha]
      rw [List.take_succ_cons, List.take_succ_cons]
      rw [ih k (by simpa using hn) (fun x hx => hall x (by rw [List.take_succ_cons]; exact List.mem_cons.2 (Or.inr hx)))]

theorem insAfterGE_take_comm (hit : Hit) :
    ∀ (l : List Hit) (n : Nat), (insAfterGE hit (l.take n)).take n = (insAfterGE hit l).take n := by
  intro l
  induction l with
  | nil => intro n; simp
  | cons a t ih =>
    intro n
    cases n with
    | zero => simp
    | succ k =>
      rw [List.take_succ_cons]
      unfold insAfterGE
      by_cases h : a.score < hit.score
      · rw [if_pos h, if_pos h]
        rw [List.take_succ_cons, List.take_succ_cons]
        cases k with
        | zero => simp
        | succ j =>
          rw [List.take_succ_cons, List.take_succ_cons, List.take_take]
          have hm : min j (j + 1) = j := by omega
          rw [hm]
      · rw [if_neg h, if_neg h]
        rw [List.take_succ_cons, List.take_succ_cons]
        rw [ih k]

theorem pairwise_rel_getLast {α : Type} {r : α → α → Prop} :
    ∀ (l : List α) (la : α), l.Pairwise r → l.getLast? = some la →
      ∀ x ∈ l, x = la ∨ r x la := by
  intro l
  induction l with
  | nil => intro la _ h; simp at h
  | cons a t ih =>
    intro la hp hl x hx
    rcases List.pairwise_cons.1 hp with ⟨ha, ht⟩
    cases t with
    | nil =>
      simp at hl
      simp at hx
      subst hl
      subst hx
      exact Or.inl rfl
    | cons b t2 =>
      have hl2 : (b :: t2).getLast? = some la := by
        rw [← hl, List.getLast?_cons_cons]
      rcases List.mem_cons.1 hx with hx | hx
      · subst hx
        have hla : la ∈ b :: t2 := by
          rcases List.mem_getLast?_eq_getLast (Option.mem_def.2 hl2) with ⟨hne, hEq⟩
          exact hEq ▸ List.getLast_mem hne
        exact Or.inr (ha la hla)
      · exact ih la ht hl2 x hx

theorem sortDescStable_sorted (l : List Hit) : (sortDescStable l).Pairwise ScoreDesc := by
  unfold sortDescStable
  exact foldl_pres (fun s => s.Pairwise ScoreDesc) (fun acc h => insAfterGE h acc)
    (fun acc h hp => insAfterGE_sorted h acc hp) l [] (List.Pairwise.nil)

theorem sortDescStable_perm (l : List Hit) : (sortDescStable l).Perm l := by
  have key : ∀ (l acc : List Hit),
      (l.foldl (fun acc h => insAfterGE h acc) acc).Perm (l ++ acc) := by
    intro l
    induction l with
    | nil => intro acc; simp
    | cons a t ih =>
      intro acc
      rw [List.foldl_cons]
      refine (ih (insAfterGE a acc)).trans ?_
      refine (List.Perm.append_left t (insAfterGE_perm a acc)).trans ?_
      rw [List.cons_append]
      exact List.perm_middle
  simpa using key l []

theorem stepTopN_take (limit : Nat) (S : List Hit) (hit : Hit) (hs : S.Pairwise ScoreDesc) :
    stepTopN limit (S.take limit) hit = (insAfterGE hit S).take limit := by
  by_cases hlen : S.length < limit
  · have hT : S.take limit = S := List.take_of_length_le (le_of_lt hlen)
    unfold stepTopN
    rw [hT, if_pos hlen, insertLoop_append]
    refine (List.take_of_length_le ?_).symm
    rw [insAfterGE_length]
    omega
  · push_neg at hlen
    have hTlen : (S.take limit).length = limit := by rw [List.length_take]; omega
    have hTs : (S.take limit).Pairwise ScoreDesc := hs.sublist (List.take_sublist _ _)
    unfold stepTopN
    rw [if_neg (by omega : ¬ (S.take limit).length < limit)]
    split
    · rename_i la heq
      by_cases hlt : la.score < hit.score
      · rw [if_pos hlt]
        have hmem : la ∈ S.take limit := by
          rcases List.mem_getLast?_eq_getLast (Option.mem_def.2 heq) with ⟨hne, hEq⟩
          exact hEq ▸ List.getLast_mem hne
        rw [insertLoop_full hit _ ⟨la, hmem, hlt⟩, hTlen, insAfterGE_take_comm]
      · rw [if_neg hlt]
        refine (insAfterGE_take_of_ge hit S limit hlen ?_).symm
        intro x hx
        rcases pairwise_rel_getLast (S.take limit) la hTs heq x hx with h1 | h1
        · subst h1
          exact hlt
        · exact fun hcon => hlt (lt_of_le_of_lt h1 hcon)
    · rename_i heq
      have h0 : S.take limit = [] := List.getLast?_eq_none_iff.1 heq
      have hl0 : limit = 0 := by rw [h0] at hTlen; simpa using hTlen.symm
      rw [h0, hl0]
      simp

theorem topn_fold_sel (limit : Nat) (cb : Option (Nat → Int → Document → Int))
    (hnz : limit ≠ 0) :
    ∀ (ms : List Match) (t0 : Nat) (S : List Hit), S.Pairwise ScoreDesc →
      ms.foldl (topNStep limit cb) (t0, S.take limit) =
        (t0 + ms.length,
          (ms.foldl (fun acc mt => insAfterGE (applyCb cb mt) acc) S).take limit) := by
  intro ms
  induction ms with
  | nil => intro t0 S _; simp
  | cons mt t ih =>
    intro t0 S hs
    rw [List.foldl_cons]
    have hstep : topNStep limit cb (t0, S.take limit) mt
        = (t0 + 1, (insAfterGE (applyCb cb mt) S).take limit) := by
      unfold topNStep
      rw [if_neg hnz]
      dsimp only
      rw [stepTopN_take limit S (applyCb cb mt) hs]
    rw [hstep]
    rw [ih (t0 + 1) (insAfterGE (applyCb cb mt) S) (insAfterGE_sorted _ S hs)]
    rw [List.foldl_cons, List.length_cons]
    have hlen2 : t0 + 1 + t.length = t0 + (t.length + 1) := by omega
    rw [hlen2]

theorem sortDescStable_rescored (cb : Option (Nat → Int → Document → Int)) (ms : List Match) :
    sortDescStable (rescored cb ms) = ms.foldl (fun acc mt => insAfterGE (applyCb cb mt) acc) [] := by
  unfold sortDescStable rescored
  rw [List.foldl_map]

/-! ### Claim C4 and C9 theorems -/

/-- **C4 counterexample**: the claim says `TopN` hits are sorted *strictly*
descending by score for every yielded match sequence; with `limit = 2` and
two matches of equal score 5, the code returns both hits with score 5
(first-seen order), which is not strictly descending. -/
theorem TopN_ties_not_strictly_descending :
    (TopN 2 [(0, 5, []), (1, 5, [])] none).Hits.map Hit.score = [5, 5] ∧
    ¬ (TopN 2 [(0, 5, []), (1, 5, [])] none).Hits.Pairwise
        (fun a b => b.score < a.score) := by
  constructor
  · decide
  · decide

/-- **C4 (amended)**: for every limit, callback and yielded match sequence,
`TopN`'s hits are exactly the first `limit` entries of the stable descending
insertion sort of the rescored matches (`topNSpec`): sorted descending
(non-strictly, ties kept in first-seen order — a later candidate with an
equal score never displaces an earlier incumbent), at most `limit` long,
and `Total` counts every match; `sortDescStable` really is a descending
sorted permutation of the full rescored match set. -/
theorem TopN_hits_eq_topNSpec (limit : Nat) (ms : List Match)
    (cb : Option (Nat → Int → Document → Int)) :
    (TopN limit ms cb).Hits = topNSpec limit ms cb ∧
    (TopN limit ms cb).Total = ms.length ∧
    (TopN limit ms cb).Hits.Pairwise ScoreDesc ∧
    (TopN limit ms cb).Hits.length ≤ limit ∧
    (sortDescStable (rescored cb ms)).Perm (rescored cb ms) ∧
    (sortDescStable (rescored cb ms)).Pairwise ScoreDesc := by
  have hmain : (TopN limit ms cb).Hits = topNSpec limit ms cb ∧
      (TopN limit ms cb).Total = ms.length := by
    by_cases hz : limit = 0
    · subst hz
      unfold TopN
      rw [topn_fold_zero cb ms 0 []]
      unfold topNSpec
      simp
    · unfold TopN
      have h0 : (0, ([] : List Hit)) = (0, ([] : List Hit).take limit) := by
        rw [List.take_nil]
      rw [h0, topn_fold_sel limit cb hz ms 0 [] List.Pairwise.nil]
      unfold topNSpec
      rw [sortDescStable_rescored]
      simp
  refine ⟨hmain.1, hmain.2, ?_, ?_, sortDescStable_perm _, sortDescStable_sorted _⟩
  · rw [hmain.1]
    unfold topNSpec
    exact (sortDescStable_sorted _).sublist (List.take_sublist _ _)
  · rw [hmain.1]
    unfold topNSpec
    exact (List.length_take_le _ _)

/-- **C9**: `TopN(0, q, cb)` returns `Total` equal to the number of matches
yielded (counting continues for every match) and an empty hit list
(selection and rescoring are skipped entirely). -/
theorem TopN_limit_zero (ms : List Match) (cb : Option (Nat → Int → Document → Int)) :
    TopN 0 ms cb = { Total := ms.length, Hits := [] } := by
  unfold TopN
  rw [topn_fold_zero cb ms 0 []]
  simp

/-! ### Claims C1, C5, C6 -/

/-- **C1 (code bug)**: delete isolation fails. `exTwo` indexes two documents
that both produce token `"sofia"` for field `"names"`, so
`postings["names"]["sofia"] = [0, 1]`. `Delete(1)` (and likewise
`Delete(0)`) succeeds but leaves the posting list equal to `[0, 1]`:
`deletePostings` runs `sort.Search` with the predicate
`current[i] <= did`, which is inverted for an increasing list, so the
search result never points at the element (except in singleton lists) and
nothing is cut — contradicting the source's own comment ("find the index
where this documentID is and cut the slice") and spec P3. -/
theorem deletePostings_fails_to_remove :
    exTwo.postings "names" "sofia" = [0, 1] ∧
    (Delete exEnv exTwo 1).map (fun s => s.postings "names" "sofia") = some [0, 1] ∧
    (Delete exEnv exTwo 0).map (fun s => s.postings "names" "sofia") = some [0, 1] := by
  refine ⟨rfl, rfl, rfl⟩

/-- **C5 counterexample**: the claim says `Get(did)` with
`did ≥ len(forward)` returns `None` without panicking; on the empty fresh
index, `Get(0)` hits Go's slice bounds check and panics (model: `none`),
it does not return the nil document (`some none`). -/
theorem Get_out_of_range_panics :
    Get (NewMemOnlyIndex exPF) 0 = none ∧
    Get (NewMemOnlyIndex exPF) 0 ≠ some none := by
  refine ⟨rfl, ?_⟩
  intro h
  rw [show Get (NewMemOnlyIndex exPF) 0 = none from rfl] at h
  exact Option.noConfusion h

/-- **C5 (amended)**: `Get(did)` panics (slice index out of range) when
`did < 0` or `did ≥ len(forward)`; on an in-range tombstoned slot it
returns the nil document (`None`) without panicking. -/
theorem Get_panics_out_of_range_none_on_tombstone (m : MemOnlyIndex) (id : Int) :
    ((id < 0 ∨ (m.forward.length : Int) ≤ id) → Get m id = none) ∧
    (0 ≤ id → id < (m.forward.length : Int) → m.forward.getD id.toNat none = none →
      Get m id = some none) := by
  constructor
  · intro h
    unfold Get
    rw [if_neg]
    omega
  · intro h1 h2 htomb
    unfold Get
    rw [if_pos ⟨h1, h2⟩, htomb]

/-- Witness for `Get_panics_out_of_range_none_on_tombstone`: on the fresh
index `Get(0)` panics; on the tombstoned slot of `exTomb` it returns the
nil document. -/
theorem Get_panics_out_of_range_none_on_tombstone_witness :
    Get (NewMemOnlyIndex exPF) 0 = none ∧ Get exTomb 0 = some none := by
  constructor
  · exact (Get_panics_out_of_range_none_on_tombstone (NewMemOnlyIndex exPF) 0).1
      (Or.inr (by decide))
  · exact (Get_panics_out_of_range_none_on_tombstone exTomb 0).2
      (by decide) (by decide) (by rfl)

/-- **C6 counterexample**: the claim says `Delete(did)` on an
already-tombstoned slot terminates normally and leaves the state unchanged;
on `exTomb` (slot 0 tombstoned) `Delete(0)` panics (model: `none`) because
`deleteLocked` calls `IndexableFields()` on the nil document without any
tombstone check. -/
theorem Delete_tombstone_not_noop :
    Delete exEnv exTomb 0 = none ∧ Delete exEnv exTomb 0 ≠ some exTomb := by
  refine ⟨rfl, ?_⟩
  intro h
  rw [show Delete exEnv exTomb 0 = none from rfl] at h
  exact Option.noConfusion h

/-- **C6 (amended)**: `deleteLocked` has no tombstone check, so `Delete` on
an in-range tombstoned slot panics through the nil interface method call
(model: returns `none`); `DeleteByID` of an unmapped external id, by
contrast, is a genuine no-op that returns the state unchanged. -/
theorem Delete_tombstone_panics (env : AnalyzerEnv) (m : MemOnlyIndex) (id : Int)
    (uuid : String) (h0 : 0 ≤ id) (ht : m.forward[id.toNat]? = some none)
    (hu : m.forwardByID uuid = none) :
    Delete env m id = none ∧ DeleteByID env m uuid = some m := by
  constructor
  · unfold Delete
    rw [if_pos h0]
    unfold deleteLocked
    rw [ht]
  · unfold DeleteByID
    rw [hu]

/-- Witness for `Delete_tombstone_panics` at the concrete tombstoned state. -/
theorem Delete_tombstone_panics_witness :
    Delete exEnv exTomb 0 = none ∧ DeleteByID exEnv exTomb "b" = some exTomb :=
  Delete_tombstone_panics exEnv exTomb 0 "b" (by decide) (by rfl) (by rfl)

/-! ### Claim C8: search-time analyzer asymmetry -/

theorem foldl_append_eq_map {α β : Type} (g : α → β) :
    ∀ (l : List α) (init : List β),
      l.foldl (fun qs t => qs ++ [g t]) init = init ++ l.map g := by
  intro l
  induction l with
  | nil => intro init; simp
  | cons a t ih =>
    intro init
    rw [List.foldl_cons, ih, List.map_cons]
    simp

theorem Terms_eq_map (env : AnalyzerEnv) (m : MemOnlyIndex) (field text : String) :
    Terms env m field text =
      (((m.perField field).getD env.defaultA).analyzeSearch text).map
        (fun t => NewTermQuery m field t) := by
  unfold Terms
  rw [foldl_append_eq_map (fun t => NewTermQuery m field t)]
  cases h : m.perField field <;> simp [h]

/-- **C8**: `Terms(field, text)` resolves the analyzer as `perField[field]`
when present and otherwise the default analyzer, and emits one term query
per token of `AnalyzeSearch(text)` in token order; when `perField` has no
entry it uses the default analyzer even for id-shaped field names — unlike
the index/delete path, whose resolution (`resolveIndexAnalyzer`) switches
to the ID analyzer for exactly those names. -/
theorem Terms_uses_default_for_id_fields (env : AnalyzerEnv) (m : MemOnlyIndex)
    (field text : String) :
    Terms env m field text =
      (((m.perField field).getD env.defaultA).analyzeSearch text).map
        (fun t => NewTermQuery m field t) ∧
    (m.perField field = none → (field = m.IDField ∨ field = "id" ∨ field = "uuid") →
      Terms env m field text =
        (env.defaultA.analyzeSearch text).map (fun t => NewTermQuery m field t) ∧
      resolveIndexAnalyzer env m field = env.idA) := by
  refine ⟨Terms_eq_map env m field text, ?_⟩
  intro h hid
  constructor
  · rw [Terms_eq_map, h, Option.getD_none]
  · unfold resolveIndexAnalyzer
    rw [h]
    exact if_pos hid

/-- Witness for `Terms_uses_default_for_id_fields` at the id-shaped field
`"id"` with no per-field analyzer. -/
theorem Terms_uses_default_for_id_fields_witness :
    Terms exEnv (NewMemOnlyIndex exPF) "id" "q"
        = (exEnv.defaultA.analyzeSearch "q").map
            (fun t => NewTermQuery (NewMemOnlyIndex exPF) "id" t) ∧
    resolveIndexAnalyzer exEnv (NewMemOnlyIndex exPF) "id" = exEnv.idA :=
  (Terms_uses_default_for_id_fields exEnv (NewMemOnlyIndex exPF) "id" "q").2 rfl
    (Or.inr (Or.inl rfl))

/-! ### Claim C3: DocID assignment -/

theorem Index_forward (env : AnalyzerEnv) :
    ∀ (docs : List Document) (m : MemOnlyIndex),
      (Index env m docs).forward = m.forward ++ docs.map some := by
  intro docs
  induction docs with
  | nil => intro m; simp [Index]
  | cons d t ih =>
    intro m
    unfold Index
    rw [List.foldl_cons]
    have h := ih (indexOne env m d)
    unfold Index at h
    rw [h, indexOne_forward]
    simp

/-- **C3**: every document indexed is appended at DocID equal to the length
of the forward store just before its append (so one `Index` call stores
`docs[i]` live at slot `len(forward) + i`: DocIDs are assigned strictly
increasingly in presentation order and never reused), while a successful
delete only tombstones its slot in place — the forward store keeps its
length and all other slots, so no freed slot is ever reassigned. -/
theorem Index_assigns_pre_append_length (env : AnalyzerEnv) (m : MemOnlyIndex)
    (docs : List Document) :
    (Index env m docs).forward = m.forward ++ docs.map some ∧
    (∀ (did : Nat) (m' : MemOnlyIndex), deleteLocked env m did = some m' →
      m'.forward = m.forward.set did none ∧ m'.forward.length = m.forward.length) := by
  refine ⟨Index_forward env docs m, ?_⟩
  intro did m' h
  have hf := deleteLocked_forward env m did m' h
  exact ⟨hf, by rw [hf, List.length_set]⟩

/-- Witness for `Index_assigns_pre_append_length`: the fresh index stores
`exDoc` at slot 0, and deleting slot 0 of `exOne` tombstones it in place. -/
theorem Index_assigns_pre_append_length_witness :
    (Index exEnv (NewMemOnlyIndex exPF) [exDoc]).forward = [some exDoc] ∧
    (deleteLocked exEnv exOne 0).map MemOnlyIndex.forward = some (exOne.forward.set 0 none) := by
  constructor
  · have h := (Index_assigns_pre_append_length exEnv (NewMemOnlyIndex exPF) [exDoc]).1
    simpa using h
  · obtain ⟨m', hm'⟩ : ∃ m', deleteLocked exEnv exOne 0 = some m' := ⟨_, rfl⟩
    rw [hm']
    exact congrArg some ((Index_assigns_pre_append_length exEnv exOne []).2 0 m' hm').1

/-! ### Claim C2: posting lists stay strictly increasing -/

theorem setPost_postings (m : MemOnlyIndex) (k v : String) (l : List Nat) (f t : String) :
    (setPost m k v l).postings f t = if f = k ∧ t = v then l else m.postings f t := rfl

theorem postsOK_of_eq {m m2 : MemOnlyIndex} {L : Nat}
    (he : m2.postings = m.postings) (h : PostsOK m L) : PostsOK m2 L := by
  intro f t
  rw [he]
  exact h f t

theorem postsOK_mono {m : MemOnlyIndex} {L L2 : Nat} (hle : L ≤ L2) (h : PostsOK m L) :
    PostsOK m L2 := by
  intro f t
  exact ⟨(h f t).1, fun x hx => lt_of_lt_of_le ((h f t).2 x hx) hle⟩

theorem addPostings_postsOK (m : MemOnlyIndex) (k v : String) (did : Nat)
    (h : PostsOK m (did + 1)) : PostsOK (addPostings m k v did) (did + 1) := by
  unfold addPostings
  cases hl : (m.postings k v).getLast? with
  | none =>
    intro f t
    rw [setPost_postings]
    split
    · exact ⟨List.pairwise_singleton _ _, fun x hx => by simp at hx; omega⟩
    · exact h f t
  | some last =>
    dsimp only
    by_cases heq : last = did
    · rw [if_pos heq]
      exact h
    · rw [if_neg heq]
      intro f t
      rw [setPost_postings]
      split
      · have hkv := h k v
        have hlast : last ∈ m.postings k v := by
          rcases List.mem_getLast?_eq_getLast (Option.mem_def.2 hl) with ⟨hne, hEq⟩
          exact hEq ▸ List.getLast_mem hne
        have hlast_lt : last < did + 1 := hkv.2 last hlast
        have hall : ∀ x ∈ m.postings k v, x < did := by
          intro x hx
          rcases pairwise_rel_getLast _ last hkv.1 hl x hx with h1 | h1
          · subst h1
            omega
          · have := hkv.2 last hlast
            omega
        constructor
        · rw [List.pairwise_append]
          refine ⟨hkv.1, List.pairwise_singleton _ _, ?_⟩
          intro a ha b hb
          simp at hb
          subst hb
          exact hall a ha
        · intro x hx
          rcases List.mem_append.1 hx with hx | hx
          · exact hkv.2 x hx
          · simp at hx
            omega
      · exact h f t

theorem take_drop_succ_sublist {α : Type} (l : List α) (n : Nat) :
    List.Sublist (l.take n ++ l.drop (n + 1)) l := by
  conv_rhs => rw [← List.take_append_drop n l]
  refine List.Sublist.append_left ?_ _
  rw [← List.tail_drop]
  exact List.tail_sublist _

theorem postsOK_setPost_sublist (m : MemOnlyIndex) (k v : String) {l : List Nat} (L : Nat)
    (hsub : List.Sublist l (m.postings k v)) (h : PostsOK m L) : PostsOK (setPost m k v l) L := by
  intro f t
  rw [setPost_postings]
  split
  · exact ⟨(h k v).1.sublist hsub, fun x hx => (h k v).2 x (hsub.subset hx)⟩
  · exact h f t

theorem deletePostings_postsOK (m : MemOnlyIndex) (k v : String) (did : Nat) (L : Nat)
    (h : PostsOK m L) : PostsOK (deletePostings m k v did) L := by
  unfold deletePostings
  dsimp only
  split
  · exact h
  · split
    · exact postsOK_setPost_sublist m k v L (take_drop_succ_sublist _ _) h
    · exact h

theorem addTokens_postsOK (m : MemOnlyIndex) (field : String) (did : Nat) (ts : List String)
    (h : PostsOK m (did + 1)) : PostsOK (addTokens m field did ts) (did + 1) :=
  foldl_pres (fun s => PostsOK s (did + 1)) _
    (fun s t hs => addPostings_postsOK s field t did hs) ts m h

theorem addValues_postsOK (m : MemOnlyIndex) (field : String) (did : Nat) (anl : Analyzer)
    (vs : List String) (h : PostsOK m (did + 1)) :
    PostsOK (addValues m field did anl vs) (did + 1) :=
  foldl_pres (fun s => PostsOK s (did + 1)) _
    (fun s v hs => addTokens_postsOK s field did (anl.analyzeIndex v) hs) vs m h

theorem indexField_postsOK (env : AnalyzerEnv) (did : Nat) (m : MemOnlyIndex)
    (p : String × List String) (h : PostsOK m (did + 1)) :
    PostsOK (indexField env did m p) (did + 1) := by
  unfold indexField
  refine addValues_postsOK _ _ _ _ _ ?_
  split
  · exact postsOK_of_eq (setIDs_postings m did p.2) h
  · exact h

theorem indexOne_postsOK (env : AnalyzerEnv) (m : MemOnlyIndex) (d : Document)
    (h : PostsOK m m.forward.length) :
    PostsOK (indexOne env m d) (indexOne env m d).forward.length := by
  have hlen : (indexOne env m d).forward.length = m.forward.length + 1 := by
    rw [indexOne_forward]
    simp
  rw [hlen]
  unfold indexOne
  refine foldl_pres (fun s => PostsOK s (m.forward.length + 1)) _
    (fun s p hs => indexField_postsOK env m.forward.length s p hs) d _ ?_
  exact postsOK_mono (Nat.le_succ _) (postsOK_of_eq rfl h)

theorem delTokens_postsOK (m : MemOnlyIndex) (field : String) (did : Nat) (ts : List String)
    (L : Nat) (h : PostsOK m L) : PostsOK (delTokens m field did ts) L :=
  foldl_pres (fun s => PostsOK s L) _
    (fun s t hs => deletePostings_postsOK s field t did L hs) ts m h

theorem delValues_postsOK (m : MemOnlyIndex) (field : String) (did : Nat) (anl : Analyzer)
    (vs : List String) (L : Nat) (h : PostsOK m L) :
    PostsOK (delValues m field did anl vs) L :=
  foldl_pres (fun s => PostsOK s L) _
    (fun s v hs => delTokens_postsOK s field did (anl.analyzeIndex v) L hs) vs m h

theorem deleteField_postsOK (env : AnalyzerEnv) (did : Nat) (m : MemOnlyIndex)
    (p : String × List String) (L : Nat) (h : PostsOK m L) :
    PostsOK (deleteField env did m p) L := by
  unfold deleteField
  refine delValues_postsOK _ _ _ _ _ _ ?_
  split
  · exact postsOK_of_eq (removeIDs_postings m p.2) h
  · exact h

/-- The posting-list invariant: every list strictly increasing and bounded
by the forward-store length. -/
def InvP (m : MemOnlyIndex) : Prop := PostsOK m m.forward.length

theorem indexOne_invP (env : AnalyzerEnv) (m : MemOnlyIndex) (d : Document)
    (h : InvP m) : InvP (indexOne env m d) :=
  indexOne_postsOK env m d h

theorem Index_invP (env : AnalyzerEnv) (docs : List Document) (m : MemOnlyIndex)
    (h : InvP m) : InvP (Index env m docs) :=
  foldl_pres InvP _ (fun s dd hs => indexOne_invP env s dd hs) docs m h

theorem deleteLocked_invP (env : AnalyzerEnv) (m : MemOnlyIndex) (did : Nat)
    (m' : MemOnlyIndex) (h : deleteLocked env m did = some m') (hm : InvP m) : InvP m' := by
  unfold deleteLocked at h
  cases hg : m.forward[did]? with
  | none => rw [hg] at h; exact absurd h (by simp)
  | some s =>
    cases s with
    | none => rw [hg] at h; exact absurd h (by simp)
    | some d =>
      rw [hg] at h
      dsimp only at h
      cases h
      have hfold : PostsOK (d.foldl (deleteField env did) m) m.forward.length :=
        foldl_pres (fun s => PostsOK s m.forward.length) _
          (fun s p hs => deleteField_postsOK env did s p m.forward.length hs) d m hm
      intro f t
      dsimp only
      have hlen : ((d.foldl (deleteField env did) m).forward.set did none).length
          = m.forward.length := by
        rw [List.length_set, deleteFold_forward]
      rw [hlen]
      exact hfold f t

theorem applyOp_invP (env : AnalyzerEnv) (m : MemOnlyIndex) (op : Op) (m' : MemOnlyIndex)
    (h : applyOp env m op = some m') (hm : InvP m) : InvP m' := by
  cases op with
  | index docs =>
    dsimp only [applyOp] at h
    cases h
    exact Index_invP env docs m hm
  | del id =>
    dsimp only [applyOp] at h
    unfold Delete at h
    split at h
    · exact deleteLocked_invP env m id.toNat m' h hm
    · exact absurd h (by simp)
  | delByID uuid =>
    dsimp only [applyOp] at h
    unfold DeleteByID at h
    split at h
    · exact deleteLocked_invP env m _ m' h hm
    · cases h
      exact hm

theorem runOps_pres (P : MemOnlyIndex → Prop) (env : AnalyzerEnv)
    (hstep : ∀ m op m', applyOp env m op = some m' → P m → P m') :
    ∀ (ops : List Op) (m m' : MemOnlyIndex), runOps env m ops = some m' → P m → P m' := by
  intro ops
  induction ops with
  | nil =>
    intro m m' h hp
    unfold runOps at h
    rw [List.foldlM_nil] at h
    cases h
    exact hp
  | cons op t ih =>
    intro m m' h hp
    unfold runOps at h
    rw [List.foldlM_cons] at h
    cases happ : applyOp env m op with
    | none => rw [happ] at h; exact absurd h (by simp)
    | some m1 =>
      rw [happ] at h
      simp only [Option.bind_eq_bind, Option.some_bind] at h
      exact ih m1 m' h (hstep m op m1 happ hp)

/-- **C2**: for every state reachable from a fresh index by any sequence of
`Index`/`Delete`/`DeleteByID` calls, every posting list `postings[f][t]` is
strictly increasing, hence duplicate-free (in particular, one `Index` call
appends a DocID at most once per `(field, term)`, no matter how often the
token occurs in the field values). -/
theorem postings_strictly_increasing (env : AnalyzerEnv) (pf : String → Option Analyzer)
    (m : MemOnlyIndex) (h : Reach env pf m) :
    ∀ f t, (m.postings f t).Pairwise (· < ·) ∧ (m.postings f t).Nodup := by
  obtain ⟨ops, hops⟩ := h
  have hinit : InvP (NewMemOnlyIndex pf) := by
    intro f t
    exact ⟨List.Pairwise.nil, fun x hx => absurd hx (List.not_mem_nil x)⟩
  have hinv : InvP m := runOps_pres InvP env (applyOp_invP env) ops _ m hops hinit
  intro f t
  refine ⟨(hinv f t).1, ?_⟩
  exact List.Pairwise.imp (fun hab => Nat.ne_of_lt hab) (hinv f t).1

/-- Witness for `postings_strictly_increasing`: the two-document state
`exTwo` is reachable by one `Index` call and its `(names, sofia)` posting
list `[0, 1]` is strictly increasing. -/
theorem postings_strictly_increasing_witness :
    (exTwo.postings "names" "sofia").Pairwise (· < ·) ∧
    (exTwo.postings "names" "sofia").Nodup :=
  postings_strictly_increasing exEnv exPF exTwo
    ⟨[Op.index [exDoc, exDoc]], rfl⟩ "names" "sofia"

/-! ### forwardByID behavior of the index and delete field loops -/

theorem setIDs_byID (did : Nat) :
    ∀ (vs : List String) (m : MemOnlyIndex) (u : String),
      (setIDs m did vs).forwardByID u = if u ∈ vs then some did else m.forwardByID u := by
  intro vs
  induction vs with
  | nil => intro m u; simp [setIDs]
  | cons a t ih =>
    intro m u
    have hstep : setIDs m did (a :: t) = setIDs (setID m a did) did t := rfl
    rw [hstep, ih]
    by_cases hu : u ∈ t
    · rw [if_pos hu, if_pos (List.mem_cons.2 (Or.inr hu))]
    · rw [if_neg hu]
      by_cases hua : u = a
      · subst hua
        rw [if_pos (List.mem_cons.2 (Or.inl rfl))]
        show (if u = u then some did else m.forwardByID u) = some did
        rw [if_pos rfl]
      · rw [if_neg (by simp [hua, hu])]
        show (if u = a then some did else m.forwardByID u) = m.forwardByID u
        rw [if_neg hua]

theorem removeIDs_byID :
    ∀ (vs : List String) (m : MemOnlyIndex) (u : String),
      (removeIDs m vs).forwardByID u = if u ∈ vs then none else m.forwardByID u := by
  intro vs
  induction vs with
  | nil => intro m u; simp [removeIDs]
  | cons a t ih =>
    intro m u
    have hstep : removeIDs m (a :: t) = removeIDs (removeID m a) t := rfl
    rw [hstep, ih]
    by_cases hu : u ∈ t
    · rw [if_pos hu, if_pos (List.mem_cons.2 (Or.inr hu))]
    · rw [if_neg hu]
      by_cases hua : u = a
      · subst hua
        rw [if_pos (List.mem_cons.2 (Or.inl rfl))]
        show (if u = u then none else m.forwardByID u) = none
        rw [if_pos rfl]
      · rw [if_neg (by simp [hua, hu])]
        show (if u = a then none else m.forwardByID u) = m.forwardByID u
        rw [if_neg hua]

theorem indexField_byID (env : AnalyzerEnv) (did : Nat) (m : MemOnlyIndex)
    (p : String × List String) (u : String) :
    (indexField env did m p).forwardByID u =
      if p.1 = m.IDField ∧ u ∈ p.2 then some did else m.forwardByID u := by
  unfold indexField
  rw [addValues_byID]
  by_cases hf : p.1 = m.IDField
  · rw [if_pos hf, setIDs_byID]
    by_cases hu : u ∈ p.2
    · rw [if_pos hu, if_pos ⟨hf, hu⟩]
    · rw [if_neg hu, if_neg (by simp [hu])]
  · rw [if_neg hf, if_neg (by simp [hf])]

theorem deleteField_byID (env : AnalyzerEnv) (did : Nat) (m : MemOnlyIndex)
    (p : String × List String) (u : String) :
    (deleteField env did m p).forwardByID u =
      if p.1 = m.IDField ∧ u ∈ p.2 then none else m.forwardByID u := by
  unfold deleteField
  rw [delValues_byID]
  by_cases hf : p.1 = m.IDField
  · rw [if_pos hf, removeIDs_byID]
    by_cases hu : u ∈ p.2
    · rw [if_pos hu, if_pos ⟨hf, hu⟩]
    · rw [if_neg hu, if_neg (by simp [hu])]
  · rw [if_neg hf, if_neg (by simp [hf])]

theorem indexFold_byID (env : AnalyzerEnv) (did : Nat) :
    ∀ (l : List (String × List String)) (m : MemOnlyIndex) (u : String),
      ((∃ p ∈ l, p.1 = m.IDField ∧ u ∈ p.2) →
        (l.foldl (indexField env did) m).forwardByID u = some did) ∧
      ((¬ ∃ p ∈ l, p.1 = m.IDField ∧ u ∈ p.2) →
        (l.foldl (indexField env did) m).forwardByID u = m.forwardByID u) := by
  intro l
  induction l with
  | nil =>
    intro m u
    exact ⟨fun h => absurd h (by simp), fun _ => rfl⟩
  | cons p0 t ih =>
    intro m u
    rw [List.foldl_cons]
    have hidf : (indexField env did m p0).IDField = m.IDField := indexField_IDField env did m p0
    constructor
    · intro hex
      by_cases hin : ∃ p ∈ t, p.1 = m.IDField ∧ u ∈ p.2
      · refine (ih (indexField env did m p0) u).1 ?_
        rw [hidf]
        exact hin
      · have hp0 : p0.1 = m.IDField ∧ u ∈ p0.2 := by
          rcases hex with ⟨p, hp, hcond⟩
          rcases List.mem_cons.1 hp with hp | hp
          · exact hp ▸ hcond
          · exact absurd ⟨p, hp, hcond⟩ hin
        have h2 := (ih (indexField env did m p0) u).2 (by rw [hidf]; exact hin)
        rw [h2, indexField_byID, if_pos hp0]
    · intro hnex
      have hp0 : ¬ (p0.1 = m.IDField ∧ u ∈ p0.2) := by
        intro hc
        exact hnex ⟨p0, List.mem_cons.2 (Or.inl rfl), hc⟩
      have hin : ¬ ∃ p ∈ t, p.1 = m.IDField ∧ u ∈ p.2 := by
        intro ⟨p, hp, hc⟩
        exact hnex ⟨p, List.mem_cons.2 (Or.inr hp), hc⟩
      have h2 := (ih (indexField env did m p0) u).2 (by rw [hidf]; exact hin)
      rw [h2, indexField_byID, if_neg hp0]

theorem deleteFold_byID (env : AnalyzerEnv) (did : Nat) :
    ∀ (l : List (String × List String)) (m : MemOnlyIndex) (u : String),
      ((∃ p ∈ l, p.1 = m.IDField ∧ u ∈ p.2) →
        (l.foldl (deleteField env did) m).forwardByID u = none) ∧
      ((¬ ∃ p ∈ l, p.1 = m.IDField ∧ u ∈ p.2) →
        (l.foldl (deleteField env did) m).forwardByID u = m.forwardByID u) := by
  intro l
  induction l with
  | nil =>
    intro m u
    exact ⟨fun h => absurd h (by simp), fun _ => rfl⟩
  | cons p0 t ih =>
    intro m u
    rw [List.foldl_cons]
    have hidf : (deleteField env did m p0).IDField = m.IDField := deleteField_IDField env did m p0
    constructor
    · intro hex
      by_cases hin : ∃ p ∈ t, p.1 = m.IDField ∧ u ∈ p.2
      · refine (ih (deleteField env did m p0) u).1 ?_
        rw [hidf]
        exact hin
      · have hp0 : p0.1 = m.IDField ∧ u ∈ p0.2 := by
          rcases hex with ⟨p, hp, hcond⟩
          rcases List.mem_cons.1 hp with hp | hp
          · exact hp ▸ hcond
          · exact absurd ⟨p, hp, hcond⟩ hin
        have h2 := (ih (deleteField env did m p0) u).2 (by rw [hidf]; exact hin)
        rw [h2, deleteField_byID, if_pos hp0]
    · intro hnex
      have hp0 : ¬ (p0.1 = m.IDField ∧ u ∈ p0.2) := by
        intro hc
        exact hnex ⟨p0, List.mem_cons.2 (Or.inl rfl), hc⟩
      have hin : ¬ ∃ p ∈ t, p.1 = m.IDField ∧ u ∈ p.2 := by
        intro ⟨p, hp, hc⟩
        exact hnex ⟨p, List.mem_cons.2 (Or.inr hp), hc⟩
      have h2 := (ih (deleteField env did m p0) u).2 (by rw [hidf]; exact hin)
      rw [h2, deleteField_byID, if_neg hp0]

theorem mem_idValuesOf (idf : String) (d : Document) (u : String) :
    u ∈ idValuesOf idf d ↔ ∃ p ∈ d, p.1 = idf ∧ u ∈ p.2 := by
  unfold idValuesOf
  rw [List.mem_flatMap]
  constructor
  · intro ⟨p, hp, hu⟩
    rcases List.mem_filter.1 hp with ⟨hpd, hpf⟩
    exact ⟨p, hpd, by simpa using hpf, hu⟩
  · intro ⟨p, hpd, hpf, hu⟩
    exact ⟨p, List.mem_filter.2 ⟨hpd, by simpa using hpf⟩, hu⟩

theorem indexOne_byID (env : AnalyzerEnv) (m : MemOnlyIndex) (d : Document) (u : String) :
    (u ∈ idValuesOf m.IDField d →
      (indexOne env m d).forwardByID u = some m.forward.length) ∧
    (u ∉ idValuesOf m.IDField d →
      (indexOne env m d).forwardByID u = m.forwardByID u) := by
  unfold indexOne
  constructor
  · intro hu
    exact (indexFold_byID env m.forward.length d _ u).1 ((mem_idValuesOf _ d u).1 hu)
  · intro hu
    exact (indexFold_byID env m.forward.length d _ u).2
      (fun hc => hu ((mem_idValuesOf _ d u).2 hc))

/-! ### Claim C10: every external-id mapping points at a live document -/

theorem getElem?_concat_elim {α : Type} (l : List α) (a : α) (i : Nat) (b : α)
    (h : (l ++ [a])[i]? = some b) :
    (i < l.length ∧ l[i]? = some b) ∨ (i = l.length ∧ b = a) := by
  by_cases hi : i < l.length
  · left
    rw [List.getElem?_append_left hi] at h
    exact ⟨hi, h⟩
  · right
    push_neg at hi
    rw [List.getElem?_append_right hi] at h
    have hlt : i - l.length < 1 := by
      by_contra hc
      push_neg at hc
      rw [List.getElem?_eq_none (by simpa using hc)] at h
      exact Option.noConfusion h
    have hi0 : i - l.length = 0 := by omega
    rw [hi0] at h
    simp at h
    exact ⟨by omega, h.symm⟩

theorem indexOne_byIdOk (env : AnalyzerEnv) (m : MemOnlyIndex) (d : Document)
    (h : ByIdOk m) : ByIdOk (indexOne env m d) := by
  intro v did hmap
  by_cases hv : v ∈ idValuesOf m.IDField d
  · rw [(indexOne_byID env m d v).1 hv] at hmap
    cases hmap
    refine ⟨d, ?_, ?_⟩
    · show (indexOne env m d).forward[m.forward.length]? = some (some d)
      rw [indexOne_forward]
      exact List.getElem?_concat_length m.forward (some d)
    · rw [indexOne_IDField]
      exact hv
  · rw [(indexOne_byID env m d v).2 hv] at hmap
    obtain ⟨doc, hlive, hval⟩ := h v did hmap
    have hlt : did < m.forward.length := (List.getElem?_eq_some_iff.1 hlive).1
    refine ⟨doc, ?_, ?_⟩
    · show (indexOne env m d).forward[did]? = some (some doc)
      rw [indexOne_forward, List.getElem?_append_left hlt]
      exact hlive
    · rw [indexOne_IDField]
      exact hval

theorem Index_byIdOk (env : AnalyzerEnv) (docs : List Document) (m : MemOnlyIndex)
    (h : ByIdOk m) : ByIdOk (Index env m docs) :=
  foldl_pres ByIdOk _ (fun s dd hs => indexOne_byIdOk env s dd hs) docs m h

theorem deleteLocked_byIdOk (env : AnalyzerEnv) (m : MemOnlyIndex) (did : Nat)
    (m' : MemOnlyIndex) (h : deleteLocked env m did = some m') (hm : ByIdOk m) :
    ByIdOk m' := by
  unfold deleteLocked at h
  cases hg : m.forward[did]? with
  | none => rw [hg] at h; exact absurd h (by simp)
  | some s =>
    cases s with
    | none => rw [hg] at h; exact absurd h (by simp)
    | some d =>
      rw [hg] at h
      dsimp only at h
      cases h
      intro v did2 hmap
      have hmap1 : (d.foldl (deleteField env did) m).forwardByID v = some did2 := hmap
      by_cases hv : ∃ p ∈ d, p.1 = m.IDField ∧ v ∈ p.2
      · rw [(deleteFold_byID env did d m v).1 hv] at hmap1
        exact absurd hmap1 (by simp)
      · rw [(deleteFold_byID env did d m v).2 hv] at hmap1
        obtain ⟨doc, hlive, hval⟩ := hm v did2 hmap1
        have hne : did2 ≠ did := by
          intro he
          subst he
          have hdoc : doc = d := by
            have h2 : some (some doc) = some (some d) :=
              Eq.trans (Eq.symm hlive) hg
            exact Option.some_inj.1 (Option.some_inj.1 h2)
          exact hv ((mem_idValuesOf m.IDField d v).1 (hdoc ▸ hval))
        refine ⟨doc, ?_, ?_⟩
        · show ((d.foldl (deleteField env did) m).forward.set did none)[did2]? = some (some doc)
          rw [List.getElem?_set_ne (fun he => hne he.symm), deleteFold_forward]
          exact hlive
        · show v ∈ idValuesOf ((d.foldl (deleteField env did) m)).IDField doc
          rw [deleteFold_IDField]
          exact hval

theorem applyOp_byIdOk (env : AnalyzerEnv) (m : MemOnlyIndex) (op : Op) (m' : MemOnlyIndex)
    (h : applyOp env m op = some m') (hm : ByIdOk m) : ByIdOk m' := by
  cases op with
  | index docs =>
    dsimp only [applyOp] at h
    cases h
    exact Index_byIdOk env docs m hm
  | del id =>
    dsimp only [applyOp] at h
    unfold Delete at h
    split at h
    · exact deleteLocked_byIdOk env m id.toNat m' h hm
    · exact absurd h (by simp)
  | delByID uuid =>
    dsimp only [applyOp] at h
    unfold DeleteByID at h
    split at h
    · exact deleteLocked_byIdOk env m _ m' h hm
    · cases h
      exact hm

/-- **C10**: in every reachable state, every `forwardByID` entry refers to
a live (non-tombstoned, in-range) forward slot, so `GetByID` never panics
and never returns a tombstoned document: an unmapped external id yields
nil, and a mapped one yields the live document of its slot. -/
theorem GetByID_never_tombstone (env : AnalyzerEnv) (pf : String → Option Analyzer)
    (m : MemOnlyIndex) (h : Reach env pf m) (v : String) :
    (m.forwardByID v = none → GetByID m v = some none) ∧
    (∀ did, m.forwardByID v = some did →
      ∃ d, m.forward[did]? = some (some d) ∧ GetByID m v = some (some d)) := by
  obtain ⟨ops, hops⟩ := h
  have hinit : ByIdOk (NewMemOnlyIndex pf) := by
    intro v2 did2 hmap
    exact absurd hmap (by simp [NewMemOnlyIndex])
  have hinv : ByIdOk m := runOps_pres ByIdOk env (applyOp_byIdOk env) ops _ m hops hinit
  constructor
  · intro hmap
    unfold GetByID
    rw [hmap]
  · intro did hmap
    obtain ⟨d, hlive, _⟩ := hinv v did hmap
    refine ⟨d, hlive, ?_⟩
    unfold GetByID
    rw [hmap]
    exact hlive

/-- Witness for `GetByID_never_tombstone`: after indexing `exDocID` into
the fresh index, the mapping for `"x"` points at the live slot 0. -/
theorem GetByID_never_tombstone_witness :
    exWithID.forward[(0 : Nat)]? = some (some exDocID) ∧
    GetByID exWithID "x" = some (some exDocID) := by
  obtain ⟨d, hd1, hd2⟩ := (GetByID_never_tombstone exEnv exPF exWithID
    ⟨[Op.index [exDocID]], rfl⟩ "x").2 0 rfl
  have hdd : d = exDocID := by
    have h2 : some (some d) = some (some exDocID) := by
      rw [← hd1]
      rfl
    exact Option.some_inj.1 (Option.some_inj.1 h2)
  exact ⟨hdd ▸ hd1, hdd ▸ hd2⟩

/-! ### Claim C7: the exact external-id mapping invariant -/

theorem liveAt_indexOne_elim (env : AnalyzerEnv) (m : MemOnlyIndex) (d : Document)
    (i : Nat) (doc : Document) (h : LiveAt (indexOne env m d) i doc) :
    (i < m.forward.length ∧ LiveAt m i doc) ∨ (i = m.forward.length ∧ doc = d) := by
  unfold LiveAt at h
  rw [indexOne_forward] at h
  rcases getElem?_concat_elim m.forward (some d) i (some doc) h with ⟨hlt, hget⟩ | ⟨heq, hsome⟩
  · exact Or.inl ⟨hlt, hget⟩
  · exact Or.inr ⟨heq, Option.some_inj.1 hsome⟩

theorem liveAt_indexOne_old (env : AnalyzerEnv) (m : MemOnlyIndex) (d : Document)
    (i : Nat) (doc : Document) (hlt : i < m.forward.length) (h : LiveAt m i doc) :
    LiveAt (indexOne env m d) i doc := by
  unfold LiveAt
  rw [indexOne_forward, List.getElem?_append_left hlt]
  exact h

theorem liveAt_indexOne_new (env : AnalyzerEnv) (m : MemOnlyIndex) (d : Document) :
    LiveAt (indexOne env m d) m.forward.length d := by
  unfold LiveAt
  rw [indexOne_forward]
  exact List.getElem?_concat_length m.forward (some d)

theorem indexOne_uniqueLive (env : AnalyzerEnv) (m : MemOnlyIndex) (d : Document)
    (hdisj : DisjointIds m d) (hu : UniqueLive m) : UniqueLive (indexOne env m d) := by
  intro d1 d2 doc1 doc2 hl1 hl2 hne v hv1
  rw [indexOne_IDField] at hv1 ⊢
  rcases liveAt_indexOne_elim env m d d1 doc1 hl1 with ⟨hlt1, hold1⟩ | ⟨heq1, hdoc1⟩
  · rcases liveAt_indexOne_elim env m d d2 doc2 hl2 with ⟨hlt2, hold2⟩ | ⟨heq2, hdoc2⟩
    · exact hu d1 d2 doc1 doc2 hold1 hold2 hne v hv1
    · rw [hdoc2]
      intro hvd
      exact hdisj v hvd d1 doc1 hold1 hv1
  · rcases liveAt_indexOne_elim env m d d2 doc2 hl2 with ⟨hlt2, hold2⟩ | ⟨heq2, hdoc2⟩
    · rw [hdoc1] at hv1
      exact hdisj v hv1 d2 doc2 hold2
    · exact absurd (heq1.trans heq2.symm) hne

theorem indexOne_iffInv (env : AnalyzerEnv) (m : MemOnlyIndex) (d : Document)
    (hdisj : DisjointIds m d) (hiff : IffInv m) : IffInv (indexOne env m d) := by
  intro v did2
  constructor
  · intro hmap
    by_cases hv : v ∈ idValuesOf m.IDField d
    · rw [(indexOne_byID env m d v).1 hv] at hmap
      cases Option.some_inj.1 hmap
      refine ⟨d, liveAt_indexOne_new env m d, ?_⟩
      rw [indexOne_IDField]
      exact hv
    · rw [(indexOne_byID env m d v).2 hv] at hmap
      obtain ⟨doc, hlive, hval⟩ := (hiff v did2).1 hmap
      have hlt : did2 < m.forward.length := (List.getElem?_eq_some_iff.1 hlive).1
      refine ⟨doc, liveAt_indexOne_old env m d did2 doc hlt hlive, ?_⟩
      rw [indexOne_IDField]
      exact hval
  · intro ⟨doc, hlive, hval⟩
    rw [indexOne_IDField] at hval
    rcases liveAt_indexOne_elim env m d did2 doc hlive with ⟨hlt, hold⟩ | ⟨heq, hdoc⟩
    · have hmap : m.forwardByID v = some did2 := (hiff v did2).2 ⟨doc, hold, hval⟩
      have hv : v ∉ idValuesOf m.IDField d := by
        intro hvd
        exact hdisj v hvd did2 doc hold hval
      rw [(indexOne_byID env m d v).2 hv]
      exact hmap
    · rw [hdoc] at hval
      rw [heq, (indexOne_byID env m d v).1 hval]

theorem deleteLocked_uniqueLive (env : AnalyzerEnv) (m : MemOnlyIndex) (did : Nat)
    (m' : MemOnlyIndex) (h : deleteLocked env m did = some m') (hu : UniqueLive m) :
    UniqueLive m' := by
  have hf := deleteLocked_forward env m did m' h
  have hidf := deleteLocked_IDField env m did m' h
  intro d1 d2 doc1 doc2 hl1 hl2 hne v hv1
  rw [hidf] at hv1 ⊢
  have hold : ∀ (i : Nat) (doc : Document), LiveAt m' i doc → LiveAt m i doc := by
    intro i doc hl
    unfold LiveAt at hl
    rw [hf] at hl
    by_cases hi : i = did
    · subst hi
      by_cases hlen : i < m.forward.length
      · rw [List.getElem?_set_self hlen] at hl
        exact absurd (Option.some_inj.1 hl) (by simp)
      · rw [List.set_eq_of_length_le (by omega)] at hl
        exact hl
    · rw [List.getElem?_set_ne (fun he => hi he.symm)] at hl
      exact hl
  exact hu d1 d2 doc1 doc2 (hold d1 doc1 hl1) (hold d2 doc2 hl2) hne v hv1

theorem deleteLocked_iffInv (env : AnalyzerEnv) (m : MemOnlyIndex) (did : Nat)
    (m' : MemOnlyIndex) (h : deleteLocked env m did = some m') (hu : UniqueLive m)
    (hiff : IffInv m) : IffInv m' := by
  unfold deleteLocked at h
  cases hg : m.forward[did]? with
  | none => rw [hg] at h; exact absurd h (by simp)
  | some s =>
    cases s with
    | none => rw [hg] at h; exact absurd h (by simp)
    | some d =>
      rw [hg] at h
      dsimp only at h
      cases h
      have hdlt : did < m.forward.length := (List.getElem?_eq_some_iff.1 hg).1
      intro v did2
      constructor
      · intro hmap
        have hmap1 : (d.foldl (deleteField env did) m).forwardByID v = some did2 := hmap
        by_cases hv : ∃ p ∈ d, p.1 = m.IDField ∧ v ∈ p.2
        · rw [(deleteFold_byID env did d m v).1 hv] at hmap1
          exact absurd hmap1 (by simp)
        · rw [(deleteFold_byID env did d m v).2 hv] at hmap1
          obtain ⟨doc, hlive, hval⟩ := (hiff v did2).1 hmap1
          have hne : did2 ≠ did := by
            intro he
            subst he
            have hdoc : doc = d :=
              Option.some_inj.1 (Option.some_inj.1 (Eq.trans (Eq.symm hlive) hg))
            exact hv ((mem_idValuesOf m.IDField d v).1 (hdoc ▸ hval))
          refine ⟨doc, ?_, ?_⟩
          · show ((d.foldl (deleteField env did) m).forward.set did none)[did2]?
                = some (some doc)
            rw [List.getElem?_set_ne (fun he => hne he.symm), deleteFold_forward]
            exact hlive
          · show v ∈ idValuesOf ((d.foldl (deleteField env did) m)).IDField doc
            rw [deleteFold_IDField]
            exact hval
      · intro ⟨doc, hlive, hval⟩
        have hval1 : v ∈ idValuesOf m.IDField doc := by
          rw [show ((d.foldl (deleteField env did) m)).IDField = m.IDField
            from deleteFold_IDField env did d m] at hval
          exact hval
        have hlive1 : LiveAt m did2 doc ∧ did2 ≠ did := by
          unfold LiveAt at hlive
          have hlive2 : ((d.foldl (deleteField env did) m).forward.set did none)[did2]?
              = some (some doc) := hlive
          rw [deleteFold_forward] at hlive2
          by_cases hi : did2 = did
          · subst hi
            rw [List.getElem?_set_self hdlt] at hlive2
            exact absurd (Option.some_inj.1 hlive2) (by simp)
          · rw [List.getElem?_set_ne (fun he => hi he.symm)] at hlive2
            exact ⟨hlive2, hi⟩
        have hmap : m.forwardByID v = some did2 := (hiff v did2).2 ⟨doc, hlive1.1, hval1⟩
        have hv : ¬ ∃ p ∈ d, p.1 = m.IDField ∧ v ∈ p.2 := by
          intro hex
          have hvd : v ∈ idValuesOf m.IDField d := (mem_idValuesOf m.IDField d v).2 hex
          exact hu did2 did doc d hlive1.1 hg hlive1.2 v hval1 hvd
        show (d.foldl (deleteField env did) m).forwardByID v = some did2
        rw [(deleteFold_byID env did d m v).2 hv]
        exact hmap

theorem greach_unique_iff (env : AnalyzerEnv) (pf : String → Option Analyzer)
    (m : MemOnlyIndex) (h : GReach env pf m) : UniqueLive m ∧ IffInv m := by
  induction h with
  | init =>
    constructor
    · intro d1 d2 doc1 doc2 hl1
      exact absurd hl1 (by simp [LiveAt, NewMemOnlyIndex])
    · intro v did
      constructor
      · intro hmap
        exact absurd hmap (by simp [NewMemOnlyIndex])
      · intro ⟨doc, hlive, _⟩
        exact absurd hlive (by simp [LiveAt, NewMemOnlyIndex])
  | index m d _ hdisj ih =>
    exact ⟨indexOne_uniqueLive env m d hdisj ih.1, indexOne_iffInv env m d hdisj ih.2⟩
  | delete m did m' _ hdel ih =>
    exact ⟨deleteLocked_uniqueLive env m did m' hdel ih.1,
      deleteLocked_iffInv env m did m' hdel ih.1 ih.2⟩

/-- **C7 counterexample**: the claimed iff is not an invariant of arbitrary
call sequences. Index two documents both carrying `_id` value `"x"`
(state `exDupIDs`, reachable by one `Index` call): slot 0 is live and its
`_id` field contains `"x"`, but `forwardByID["x"] = 1` (last-wins), so the
direction "live document owning the value implies its mapping is present"
fails at `(v, did) = ("x", 0)`. Moreover, deleting document 0 then drops
the mapping `"x" ↦ 1` that the still-live document 1 owns. -/
theorem forwardByID_iff_fails_on_duplicate_ids :
    Reach exEnv exPF exDupIDs ∧
    exDupIDs.forwardByID "x" = some 1 ∧
    ¬ IffInv exDupIDs ∧
    (Delete exEnv exDupIDs 0).map (fun s => s.forwardByID "x") = some none ∧
    (Delete exEnv exDupIDs 0).map (fun s => s.forward[1]?) = some (some (some exDocID)) := by
  refine ⟨⟨[Op.index [exDocID, exDocID]], rfl⟩, rfl, ?_, rfl, rfl⟩
  intro hiff
  have h0 := (hiff "x" 0).2 ⟨exDocID, rfl, by decide⟩
  rw [show exDupIDs.forwardByID "x" = some 1 from rfl] at h0
  exact absurd h0 (by simp)

/-- **C7 (amended)**: invariant I5 holds on the caller discipline the spec
assumes (external ids unique across live documents): for every state
reachable from a fresh index where each document is indexed only while its
id-field values are disjoint from those of all then-live documents
(`GReach`; `Index` on a list is the fold of such single-document steps),
`external_id ↦ did` is in `forwardByID` iff `forward[did]` is live and its
id field contains that value. Without that discipline the iff can fail
(see the counterexample). -/
theorem forwardByID_iff_live (env : AnalyzerEnv) (pf : String → Option Analyzer)
    (m : MemOnlyIndex) (h : GReach env pf m) (v : String) (did : Nat) :
    m.forwardByID v = some did ↔ ∃ d, LiveAt m did d ∧ v ∈ idValuesOf m.IDField d :=
  (greach_unique_iff env pf m h).2 v did

/-- Witness for `forwardByID_iff_live` at the one-document state
`exWithID`, reached by a guarded index step. -/
theorem forwardByID_iff_live_witness : exWithID.forwardByID "x" = some 0 := by
  have hdisj : DisjointIds (NewMemOnlyIndex exPF) exDocID := by
    intro v _ did doc hlive
    exact absurd hlive (by simp [LiveAt, NewMemOnlyIndex])
  have hg : GReach exEnv exPF exWithID :=
    GReach.index (NewMemOnlyIndex exPF) exDocID GReach.init hdisj
  exact (forwardByID_iff_live exEnv exPF exWithID hg "x" 0).2 ⟨exDocID, rfl, by decide⟩

end GoIndex



